import Mathlib

/-!
Verification of the Bernoulli mixture model EM implementation
(`bernoullimix/mixture.py`).

The embedding represents numpy float arrays as exact rational data
(`ℚ`), indexed by `Fin`.  The natural logarithm used by the likelihood
computations is kept as a parameter `log : ℚ → R` into a linear ordered
field `R`; theorems about analytic facts instantiate it with
`Real.log`.  Failure paths (`raise ValueError`) are represented with
`Except String`.
-/

namespace Bernoullimix

/-- `ConvergenceStatus` object returned by `BernoulliMixture.fit`. -/
structure ConvergenceStatus (R : Type) where
  converged : Bool
  number_of_iterations : ℕ
  likelihood_trace : Option (List R)
deriving Repr

/-- The parameter state of a `BernoulliMixture` model with `K` components and
`D` dimensions: the `(K,)` mixing coefficient vector and the `(K, D)` emission
probability matrix. -/
structure BernoulliMixture (K D : ℕ) where
  mixing_coefficients : Fin K → ℚ
  emission_probabilities : Fin K → Fin D → ℚ

/-- `np.isclose(a, b)` with the default tolerances `rtol=1e-5`, `atol=1e-8`:
`|a - b| ≤ atol + rtol * |b|`. -/
def np_isclose_default (a b : ℚ) : Prop :=
  |a - b| ≤ 1 / 100000000 + 1 / 100000 * |b|

instance (a b : ℚ) : Decidable (np_isclose_default a b) := by
  unfold np_isclose_default
  infer_instance

/-- `BernoulliMixture._bounded_between_zero_and_one` applied to a flat list of
entries: `np.all((array_ >= 0) & (array_ <= 1))`. -/
def bounded_between_zero_and_one (l : List ℚ) : Prop :=
  ∀ x ∈ l, 0 ≤ x ∧ x ≤ 1

instance (l : List ℚ) : Decidable (bounded_between_zero_and_one l) := by
  unfold bounded_between_zero_and_one
  infer_instance

/-- `BernoulliMixture._validate`: the shape and probability checks run by the
constructor, in source order.  The raw inputs are a list (the mixing vector)
and a list of lists (the emission matrix); shape checks compare lengths
against `K` and `D`. -/
def validate (K D : ℕ) (mixing_coefficients : List ℚ)
    (emission_probabilities : List (List ℚ)) : Except String Unit :=
  if ¬ (mixing_coefficients.length = K) then
    .error "Wrong shape of mixing coefficients provided."
  else if ¬ np_isclose_default mixing_coefficients.sum 1 then
    .error "Mixing coefficient probabilities do not sum to one."
  else if ¬ bounded_between_zero_and_one mixing_coefficients then
    .error "Mixing coefficients not bounded between 0 and 1"
  else if ¬ (emission_probabilities.length = K ∧
      ∀ r ∈ emission_probabilities, r.length = D) then
    .error "Wrong shape of emission probabilities matrix."
  else if ¬ (∀ r ∈ emission_probabilities, bounded_between_zero_and_one r) then
    .error "Emission probabilities not bounded between 0 and 1"
  else
    .ok ()

/-- `BernoulliMixture.__init__`: stores the parameter arrays and runs
`_validate`; a raised `ValueError` is modelled by the `Except.error` branch,
in which case no model object is observable. -/
def bernoulli_mixture_init (K D : ℕ) (mixing_coefficients : List ℚ)
    (emission_probabilities : List (List ℚ)) :
    Except String (BernoulliMixture K D) :=
  (validate K D mixing_coefficients emission_probabilities).map fun _ =>
    { mixing_coefficients := fun k => mixing_coefficients.getD k 0
      emission_probabilities := fun k d =>
        (emission_probabilities.getD k []).getD d 0 }

/-- `BernoulliMixture.number_of_free_parameters`:
`(K - 1) + K * D` (Python integer arithmetic). -/
def number_of_free_parameters (K D : ℕ) : ℤ :=
  ((K : ℤ) - 1) + (K : ℤ) * (D : ℤ)

/-- Modelled from the spec: `bernoullimix._bernoulli.bernoulli_prob_for_observations`
is a compiled (Cython) module that is not part of the repository sources under
`src/`; spec §4.3 defines the per-row emission likelihood as
`∏_d (p[d] if row[d] else 1 - p[d])`. -/
def bernoulli_prob_for_observations {M D : ℕ} (p : Fin D → ℚ)
    (observations : Fin M → Fin D → Bool) : Fin M → ℚ :=
  fun i => ∏ d, if observations i d then p d else 1 - p d

/-- `BernoulliMixture._observation_emission_support`: the `(M, K)` support
matrix, column `k` being the mixing coefficient times the per-row Bernoulli
probability for component `k`. -/
def observation_emission_support {K D M : ℕ} (model : BernoulliMixture K D)
    (observations : Fin M → Fin D → Bool) : Fin M → Fin K → ℚ :=
  fun i k => model.mixing_coefficients k *
    bernoulli_prob_for_observations (model.emission_probabilities k) observations i

/-- `BernoulliMixture._log_likelihood_from_support`:
`np.sum(np.log(np.sum(support, axis=1)) * weights)`. -/
def log_likelihood_from_support {R : Type} [LinearOrderedField R] (log : ℚ → R)
    {M K : ℕ} (support : Fin M → Fin K → ℚ) (weights : Fin M → ℚ) : R :=
  ∑ i, log (∑ k, support i k) * (weights i : R)

/-- `BernoulliMixture._posterior_probability_of_class_given_support`:
`(support.T / np.sum(support, axis=1)).T`. -/
def posterior_probability_of_class_given_support {M K : ℕ}
    (support : Fin M → Fin K → ℚ) : Fin M → Fin K → ℚ :=
  fun i k => support i k / ∑ j, support i j

/-- Modelled from the spec: `bernoullimix._bernoulli.maximise_emissions` is a
compiled (Cython) module that is not part of the repository sources under
`src/`; spec §4.6 defines the emission update numerator as
`vs[k, d] = Σ_i weight_i × z*[i,k] × row_i[d]`. -/
def maximise_emissions {M K D : ℕ} (unique_dataset : Fin M → Fin D → Bool)
    (unique_zstar : Fin M → Fin K → ℚ) (weights : Fin M → ℚ) :
    Fin K → Fin D → ℚ :=
  fun k d => ∑ i, weights i * unique_zstar i k *
    (if unique_dataset i d then 1 else 0)

/-- `BernoulliMixture._m_step`: `u = np.sum(unique_zstar.T * weights, axis=1)`,
`vs = maximise_emissions(...)`, `vs[k] /= u[k]`, returning
`(u / sum_of_weights, vs)`. -/
def m_step {M K D : ℕ} (unique_zstar : Fin M → Fin K → ℚ)
    (unique_dataset : Fin M → Fin D → Bool) (weights : Fin M → ℚ) :
    (Fin K → ℚ) × (Fin K → Fin D → ℚ) :=
  let u : Fin K → ℚ := fun k => ∑ i, unique_zstar i k * weights i
  let sum_of_weights : ℚ := ∑ i, weights i
  let vs := maximise_emissions unique_dataset unique_zstar weights
  (fun k => u k / sum_of_weights, fun k d => vs k d / u k)

/-- Follows the spec's words (§4.6), for comparison with `m_step`:
`u_k = Σ_i weight_i × z*[i,k]`, `new mixing_coefficient_k = u_k / Σ_k u_k`,
`new emission_probabilities[k,d] = (Σ_i weight_i × z*[i,k] × row_i[d]) / u_k`,
with no regularization or smoothing term. -/
def m_step_spec {M K D : ℕ} (unique_zstar : Fin M → Fin K → ℚ)
    (unique_dataset : Fin M → Fin D → Bool) (weights : Fin M → ℚ) :
    (Fin K → ℚ) × (Fin K → Fin D → ℚ) :=
  let u : Fin K → ℚ := fun k => ∑ i, weights i * unique_zstar i k
  (fun k => u k / ∑ j, u j,
   fun k d =>
     (∑ i, weights i * unique_zstar i k * (if unique_dataset i d then 1 else 0))
       / u k)

/-- `BernoulliMixture._aggregate_dataset`: unique rows of the dataset together
with their occurrence counts (the numpy structured-view/`np.unique` trick,
whose contract is exact row deduplication with counts). -/
def aggregate_dataset {α : Type} [DecidableEq α] (dataset : List α) :
    List α × List ℕ :=
  (dataset.dedup, dataset.dedup.map fun r => dataset.count r)

/-- The rows of an `N × Dp` dataset, reinterpreted as rows of width `D` once
the dimension check `Dp = D` has succeeded. -/
def dataset_rows {N Dp : ℕ} (D : ℕ) (h : Dp = D)
    (dataset : Fin N → Fin Dp → Bool) : Fin N → Fin D → Bool :=
  fun i d => dataset i (Fin.cast h.symm d)

/-- The dataset as a list of rows, in row order. -/
def dataset_row_list {N D : ℕ} (rows : Fin N → Fin D → Bool) :
    List (Fin D → Bool) :=
  (List.finRange N).map rows

/-- `BernoulliMixture.log_likelihood`: checks the column count against `D`,
aggregates the dataset to unique rows and weights, computes the support of the
unique rows, and reduces it with `_log_likelihood_from_support`.  The raised
`ValueError` on a column-count mismatch is the `Except.error` branch. -/
def log_likelihood {R : Type} [LinearOrderedField R] (log : ℚ → R)
    {K D N Dp : ℕ} (model : BernoulliMixture K D)
    (dataset : Fin N → Fin Dp → Bool) : Except String R :=
  if h : Dp = D then
    let l := dataset_row_list (dataset_rows D h dataset)
    let ag := aggregate_dataset l
    let unique_dataset : Fin ag.1.length → Fin D → Bool := fun i => ag.1.get i
    let weights : Fin ag.1.length → ℚ := fun i => (ag.2.getD i 0 : ℚ)
    let support := observation_emission_support model unique_dataset
    .ok (log_likelihood_from_support log support weights)
  else
    .error "The dataset shape does not match number of dimensions."

/-- Follows the spec's words (§8, aggregation correctness), for comparison
with `log_likelihood`: the naive per-row sum `Σ_n log(Σ_k support[n,k])`
computed over the raw, non-deduplicated dataset. -/
def log_likelihood_naive {R : Type} [LinearOrderedField R] (log : ℚ → R)
    {K D N Dp : ℕ} (model : BernoulliMixture K D)
    (dataset : Fin N → Fin Dp → Bool) : Except String R :=
  if h : Dp = D then
    let support := observation_emission_support model (dataset_rows D h dataset)
    .ok (∑ n, log (∑ k, support n k))
  else
    .error "The dataset shape does not match number of dimensions."

/-- `BernoulliMixture._penalised_likelihood`:
`-2.0 * log_likelihood + psi * self.number_of_free_parameters`. -/
def penalised_likelihood {R : Type} [LinearOrderedField R] (K D : ℕ)
    (log_likelihood psi : R) : R :=
  -2 * log_likelihood + psi * (number_of_free_parameters K D : R)

/-- `BernoulliMixture.AIC`: penalised likelihood with `psi = 2`. -/
def AIC {R : Type} [LinearOrderedField R] (log : ℚ → R) {K D N Dp : ℕ}
    (model : BernoulliMixture K D) (dataset : Fin N → Fin Dp → Bool) :
    Except String R :=
  (log_likelihood log model dataset).map fun L =>
    penalised_likelihood K D L 2

/-- `BernoulliMixture.BIC`: penalised likelihood with
`psi = np.log(len(dataset))`, `len(dataset)` being the raw row count `N`. -/
def BIC {R : Type} [LinearOrderedField R] (log : ℚ → R) {K D N Dp : ℕ}
    (model : BernoulliMixture K D) (dataset : Fin N → Fin Dp → Bool) :
    Except String R :=
  (log_likelihood log model dataset).map fun L =>
    penalised_likelihood K D L (log (N : ℚ))

/-- `BernoulliMixture.soft_assignment`: support of the raw rows followed by
the posterior normalisation.  Modelled from the spec: the dimension check is
performed by the compiled `bernoulli_prob_for_observations` (the Cython
`bernoullimix._bernoulli` module is not part of the sources under `src/`);
spec §4.10 states that `soft_assignment` fails with a dimension-mismatch
error if the column count differs from `D`. -/
def soft_assignment {K D N Dp : ℕ} (model : BernoulliMixture K D)
    (dataset : Fin N → Fin Dp → Bool) :
    Except String (Fin N → Fin K → ℚ) :=
  if h : Dp = D then
    let support := observation_emission_support model (dataset_rows D h dataset)
    .ok (posterior_probability_of_class_given_support support)
  else
    .error "The dataset shape does not match number of dimensions."

/-- Left-to-right scan underlying `np.argmax`: the running best index is
replaced only on a strict increase, so the first maximal index wins. -/
def argmax_go {K : ℕ} (v : Fin K → ℚ) : List (Fin K) → Fin K → Fin K
  | [], best => best
  | i :: l, best => argmax_go v l (if v best < v i then i else best)

/-- `np.argmax` along one row: the index of the first occurrence of the
maximal value; `none` on an empty axis (where numpy raises). -/
def np_argmax {K : ℕ} (v : Fin K → ℚ) : Option (Fin K) :=
  if h : 0 < K then some (argmax_go v (List.finRange K) ⟨0, h⟩) else none

/-- `BernoulliMixture.hard_assignment`: `np.argmax(soft_assignment, axis=1)`. -/
def hard_assignment {K D N Dp : ℕ} (model : BernoulliMixture K D)
    (dataset : Fin N → Fin Dp → Bool) :
    Except String (Fin N → Option (Fin K)) :=
  (soft_assignment model dataset).map fun probs => fun n => np_argmax (probs n)

/-- One iteration body of the `fit` loop after the convergence test: the
E-step on the unique-row support followed by `_m_step`, giving the model
whose parameters are committed in place. -/
def em_step {K D M : ℕ} (unique_dataset : Fin M → Fin D → Bool)
    (counts : Fin M → ℚ) (model : BernoulliMixture K D) :
    BernoulliMixture K D :=
  let unique_support := observation_emission_support model unique_dataset
  let unique_z_star := posterior_probability_of_class_given_support unique_support
  let pe := m_step unique_z_star unique_dataset counts
  { mixing_coefficients := pe.1, emission_probabilities := pe.2 }

/-- The state returned by the `fit` while-loop: the (mutated-in-place) model,
the `current_log_likelihood` variable, the `converged` flag, the
`iterations_done` counter and the recorded likelihood trace. -/
structure FitResult (K D : ℕ) (R : Type) where
  model : BernoulliMixture K D
  current_log_likelihood : Option R
  converged : Bool
  iterations_done : ℕ
  trace : List R

/-- The `while` loop of `BernoulliMixture.fit`, with the remaining iteration
budget as explicit fuel.  Each pass computes the unique-row support and the
current log-likelihood; if a previous log-likelihood exists and
`np.isclose(current, previous, rtol=0, atol=convergence_threshold)` holds
(i.e. `|current - previous| ≤ convergence_threshold`), it stops with
`converged = true` before any parameter update; otherwise it commits the
E-step/M-step update, optionally records the likelihood, and continues. -/
def fit_loop {R : Type} [LinearOrderedField R] (log : ℚ → R) {K D M : ℕ}
    (unique_dataset : Fin M → Fin D → Bool) (counts : Fin M → ℚ)
    (convergence_threshold : R) (trace_likelihood : Bool) :
    ℕ → BernoulliMixture K D → Option R → ℕ → List R → FitResult K D R
  | 0, model, previous, iterations_done, tr =>
      ⟨model, previous, false, iterations_done, tr⟩
  | fuel + 1, model, previous, iterations_done, tr =>
      let unique_support := observation_emission_support model unique_dataset
      let current := log_likelihood_from_support log unique_support counts
      let proceed :=
        fit_loop log unique_dataset counts convergence_threshold trace_likelihood
          fuel (em_step unique_dataset counts model) (some current)
          (iterations_done + 1)
          (if trace_likelihood then tr ++ [current] else tr)
      match previous with
      | some p =>
          if |current - p| ≤ convergence_threshold then
            ⟨model, some current, true, iterations_done, tr⟩
          else proceed
      | none => proceed

/-- `BernoulliMixture.fit` with a finite `iteration_limit`: dimension check,
one-time aggregation, then the iteration loop; returns the mutated model, the
`current_log_likelihood` value (still `None` when no iteration ran) and the
`ConvergenceStatus`. -/
def fit {R : Type} [LinearOrderedField R] (log : ℚ → R) {K D N Dp : ℕ}
    (model : BernoulliMixture K D) (dataset : Fin N → Fin Dp → Bool)
    (iteration_limit : ℕ) (convergence_threshold : R)
    (trace_likelihood : Bool) :
    Except String (BernoulliMixture K D × Option R × ConvergenceStatus R) :=
  if h : Dp = D then
    let l := dataset_row_list (dataset_rows D h dataset)
    let ag := aggregate_dataset l
    let unique_dataset : Fin ag.1.length → Fin D → Bool := fun i => ag.1.get i
    let counts : Fin ag.1.length → ℚ := fun i => (ag.2.getD i 0 : ℚ)
    let r := fit_loop log unique_dataset counts convergence_threshold
      trace_likelihood iteration_limit model none 0 []
    .ok (r.model, r.current_log_likelihood,
      ⟨r.converged, r.iterations_done,
        if trace_likelihood then some r.trace else none⟩)
  else
    .error "The dataset shape does not match number of dimensions."

/-! ## Theorems -/

/-- C4: for every dataset, `_aggregate_dataset` returns unique rows without
duplicates, the weight at each position is the number of original rows equal
to the unique row at that position, the weights sum to the original row
count, and exactly the original rows appear among the unique rows (the
deduplication is exact and preserves the complete multiset of rows). -/
theorem aggregate_dataset_correct {α : Type} [DecidableEq α] (dataset : List α) :
    (aggregate_dataset dataset).1.Nodup
    ∧ (∀ i : ℕ, (aggregate_dataset dataset).2[i]?
        = ((aggregate_dataset dataset).1[i]?).map fun r => dataset.count r)
    ∧ (aggregate_dataset dataset).2.sum = dataset.length
    ∧ (∀ r, r ∈ (aggregate_dataset dataset).1 ↔ r ∈ dataset) := by
  refine ⟨dataset.nodup_dedup, ?_, ?_, ?_⟩
  · intro i
    simp [aggregate_dataset, List.getElem?_map]
  · simpa [aggregate_dataset] using dataset.sum_map_count_dedup_eq_length
  · intro r
    simp [aggregate_dataset, List.mem_dedup]

/-- Auxiliary: an `Except.map` value is `ok` for some output exactly when the
underlying computation is `ok`. -/
theorem except_map_ok_iff {ε α β : Type} (f : α → β) (e : Except ε α) :
    (∃ b, e.map f = .ok b) ↔ ∃ a, e = .ok a := by
  cases e <;> simp [Except.map]

/-- C7: model construction succeeds exactly when the mixing vector has length
`K`, sums to `1` within the `np.isclose` default tolerance, has entries in
`[0, 1]`, and the emission matrix has shape `(K, D)` with entries in `[0, 1]`;
in particular construction with `mixing_coefficients = [0.5, 0.4, 0.2]`
(summing to `1.1`) and construction with an emission probability of `1.3` are
both rejected, and no model is observable after a rejected construction. -/
theorem init_validates :
    (∀ (K D : ℕ) (mixing emission),
      (∃ m, bernoulli_mixture_init K D mixing emission = .ok m) ↔
        (mixing.length = K
          ∧ np_isclose_default mixing.sum 1
          ∧ bounded_between_zero_and_one mixing
          ∧ emission.length = K ∧ (∀ r ∈ emission, r.length = D)
          ∧ (∀ r ∈ emission, bounded_between_zero_and_one r)))
    ∧ (bernoulli_mixture_init 3 4 [1/2, 2/5, 1/5]
        (List.replicate 3 (List.replicate 4 (1/2)))).isOk = false
    ∧ (bernoulli_mixture_init 3 4 [1/2, 2/5, 1/10]
        [[13/10, 1/2, 1/2, 1/2], [1/2, 1/2, 1/2, 1/2],
         [1/2, 1/2, 1/2, 1/2]]).isOk = false := by
  refine ⟨?_, ?_, ?_⟩
  · intro K D mixing emission
    rw [bernoulli_mixture_init, except_map_ok_iff]
    unfold validate
    split_ifs with h1 h2 h3 h4 h5 <;> simp_all
  · norm_num [bernoulli_mixture_init, validate, np_isclose_default,
      Except.map, Except.isOk, Except.toBool, abs_le]
  · norm_num [bernoulli_mixture_init, validate, np_isclose_default,
      bounded_between_zero_and_one, Except.map, Except.isOk, Except.toBool,
      abs_le]

/-- C2: under the claim's preconditions (each responsibility row sums to one
and every effective component weight is nonzero), `_m_step` returns exactly
the closed-form maximum-likelihood update written in the spec: `u_k / Σ_k u_k`
for the mixing coefficients and `(Σ_i w_i z*[i,k] row_i[d]) / u_k` for the
emission probabilities, with no regularization or smoothing term. -/
theorem m_step_matches_spec {M K D : ℕ} (unique_zstar : Fin M → Fin K → ℚ)
    (unique_dataset : Fin M → Fin D → Bool) (weights : Fin M → ℚ)
    (hz : ∀ i, ∑ k, unique_zstar i k = 1)
    (hu : ∀ k, (∑ i, unique_zstar i k * weights i) ≠ 0) :
    m_step unique_zstar unique_dataset weights
      = m_step_spec unique_zstar unique_dataset weights := by
  have hden : (∑ j, ∑ i, weights i * unique_zstar i j) = ∑ i, weights i := by
    rw [Finset.sum_comm]
    refine Finset.sum_congr rfl fun i _ => ?_
    rw [← Finset.mul_sum, hz i, mul_one]
  have hcomm : ∀ k, (∑ i, weights i * unique_zstar i k)
      = ∑ i, unique_zstar i k * weights i :=
    fun k => Finset.sum_congr rfl fun i _ => mul_comm _ _
  have h1 : (m_step unique_zstar unique_dataset weights).1
      = (m_step_spec unique_zstar unique_dataset weights).1 := by
    funext k
    show (∑ i, unique_zstar i k * weights i) / (∑ i, weights i)
        = (∑ i, weights i * unique_zstar i k)
          / ∑ j, ∑ i, weights i * unique_zstar i j
    rw [hden, hcomm]
  have h2 : (m_step unique_zstar unique_dataset weights).2
      = (m_step_spec unique_zstar unique_dataset weights).2 := by
    funext k d
    show (∑ i, weights i * unique_zstar i k
          * (if unique_dataset i d then 1 else 0))
          / (∑ i, unique_zstar i k * weights i)
        = (∑ i, weights i * unique_zstar i k
          * (if unique_dataset i d then 1 else 0))
          / (∑ i, weights i * unique_zstar i k)
    rw [hcomm]
  exact Prod.ext_iff.mpr ⟨h1, h2⟩

/-- A concrete one-row, one-component responsibility matrix, dataset and
weight vector, used as witness inputs. -/
def zstar_one : Fin 1 → Fin 1 → ℚ := fun _ _ => 1

/-- A concrete one-row, one-column boolean dataset. -/
def rows_one : Fin 1 → Fin 1 → Bool := fun _ _ => true

/-- A concrete one-entry weight vector. -/
def weights_one : Fin 1 → ℚ := fun _ => 1

/-- Witness for C2 at a concrete input. -/
theorem m_step_matches_spec_witness :
    (∀ i, ∑ k, zstar_one i k = 1)
    ∧ (∀ k, (∑ i, zstar_one i k * weights_one i) ≠ 0)
    ∧ m_step zstar_one rows_one weights_one
      = m_step_spec zstar_one rows_one weights_one :=
  ⟨by simp [zstar_one], by simp [zstar_one, weights_one],
    m_step_matches_spec _ _ _ (by simp [zstar_one])
      (by simp [zstar_one, weights_one])⟩

/-- C10: calling `fit` with `iteration_limit = 0` on a dimension-matching
dataset performs no iterations: it returns the model unchanged, `none` in
place of the promised log-likelihood float, and a `ConvergenceStatus` with
`converged = false` and `number_of_iterations = 0`. -/
theorem fit_iteration_limit_zero {R : Type} [LinearOrderedField R]
    (log : ℚ → R) {K D N : ℕ} (model : BernoulliMixture K D)
    (dataset : Fin N → Fin D → Bool) (convergence_threshold : R)
    (trace_likelihood : Bool) :
    fit log model dataset 0 convergence_threshold trace_likelihood
      = .ok (model, none,
          ⟨false, 0, if trace_likelihood then some [] else none⟩) := by
  simp [fit, fit_loop]

/-- C8: `number_of_free_parameters` is `(K - 1) + K * D` (hence `14` for
`K = 3`, `D = 4`), and on a dimension-matching dataset with raw row count `N`,
`AIC = -2 * log_likelihood + 2 * free_parameters` and
`BIC = -2 * log_likelihood + log(N) * free_parameters`, `N` being the raw
dataset length, not the unique-row count. -/
theorem aic_bic_formulas {R : Type} [LinearOrderedField R] (log : ℚ → R)
    {K D N : ℕ} (model : BernoulliMixture K D)
    (dataset : Fin N → Fin D → Bool) (L : R)
    (h : log_likelihood log model dataset = .ok L) :
    AIC log model dataset
        = .ok (-2 * L + 2 * (number_of_free_parameters K D : R))
    ∧ BIC log model dataset
        = .ok (-2 * L + log (N : ℚ) * (number_of_free_parameters K D : R))
    ∧ number_of_free_parameters K D = (K - 1 : ℤ) + K * D
    ∧ number_of_free_parameters 3 4 = 14 := by
  refine ⟨?_, ?_, rfl, by decide⟩ <;>
    simp [AIC, BIC, h, penalised_likelihood, Except.map]

/-- Auxiliary: summing `count r • g r` over the deduplicated list recovers the
plain sum of `g` over the original list. -/
theorem sum_dedup_count_smul {α β : Type} [DecidableEq α] [AddCommMonoid β]
    (l : List α) (g : α → β) :
    (l.dedup.map fun r => l.count r • g r).sum = (l.map g).sum := by
  have h1 : ((l : Multiset α).map g).sum
      = ∑ m ∈ (l : Multiset α).toFinset, (l : Multiset α).count m • g m :=
    Finset.sum_multiset_map_count _ g
  have h2 : ((l : Multiset α).map g).sum = (l.map g).sum := by
    simp
  have h3 : ∑ m ∈ (l : Multiset α).toFinset, (l : Multiset α).count m • g m
      = (l.dedup.map fun r => l.count r • g r).sum := by
    rw [Finset.sum]
    have : (l : Multiset α).toFinset.val = (l.dedup : Multiset α) := by
      simp [Multiset.toFinset]
    rw [this]
    simp
  rw [← h2, h1, h3]

/-- Auxiliary: a sum over `Fin l.length` of a function of `l.get` is a sum
over the list. -/
theorem fin_sum_get {α β : Type} [AddCommMonoid β] (l : List α) (F : α → β) :
    (∑ i : Fin l.length, F (l.get i)) = (l.map F).sum := by
  rw [Fin.sum_univ_def]
  have : List.map (fun i => F (l.get i)) (List.finRange l.length)
      = List.map F (List.map l.get (List.finRange l.length)) := by
    rw [List.map_map]
    rfl
  rw [this, List.finRange_map_get]

/-- Auxiliary: the weight read off by `log_likelihood` at position `i` is the
occurrence count of the `i`-th unique row. -/
theorem aggregate_weights_eq_count {α : Type} [DecidableEq α] (l : List α)
    (i : Fin (aggregate_dataset l).1.length) :
    (aggregate_dataset l).2.getD i 0 = l.count ((aggregate_dataset l).1.get i) := by
  have hi : (i : ℕ) < (aggregate_dataset l).1.length := i.isLt
  simp only [aggregate_dataset] at hi ⊢
  rw [List.getD_eq_getElem?_getD, List.getElem?_map,
    List.getElem?_eq_getElem hi]
  simp [List.get_eq_getElem]

/-- The total support of a single row, as a function of the row content. -/
def row_support {K D : ℕ} (model : BernoulliMixture K D)
    (r : Fin D → Bool) : ℚ :=
  ∑ k, model.mixing_coefficients k
    * ∏ d, (if r d then model.emission_probabilities k d
        else 1 - model.emission_probabilities k d)

/-- Auxiliary: the row sum of the support matrix depends only on the row
content. -/
theorem support_row_sum {K D M : ℕ} (model : BernoulliMixture K D)
    (observations : Fin M → Fin D → Bool) (i : Fin M) :
    (∑ k, observation_emission_support model observations i k)
      = row_support model (observations i) := by
  rfl

/-- Auxiliary: the deduplicated, weighted sum over unique rows of a per-row
quantity recovers the plain sum over the raw rows. -/
theorem sum_unique_weighted {α β : Type} [DecidableEq α] [AddCommMonoid β]
    (l : List α) (g : α → β) :
    (∑ i : Fin (aggregate_dataset l).1.length,
        l.count ((aggregate_dataset l).1.get i)
          • g ((aggregate_dataset l).1.get i))
      = (l.map g).sum := by
  have h := fin_sum_get (l := l.dedup) (fun r => l.count r • g r)
  exact h.trans (sum_dedup_count_smul l g)

/-- C5: `log_likelihood` computed through the deduplicated rows-plus-weights
path agrees with the naive per-row sum over the raw, non-deduplicated
dataset, for every dataset (and both fail identically on a dimension
mismatch). -/
theorem log_likelihood_eq_naive {R : Type} [LinearOrderedField R]
    (log : ℚ → R) {K D N Dp : ℕ} (model : BernoulliMixture K D)
    (dataset : Fin N → Fin Dp → Bool) :
    log_likelihood log model dataset = log_likelihood_naive log model dataset := by
  unfold log_likelihood log_likelihood_naive
  by_cases h : Dp = D
  · rw [dif_pos h, dif_pos h]
    simp only [Except.ok.injEq]
    set rows := dataset_rows D h dataset with hrows
    set l := dataset_row_list rows with hl
    set g : (Fin D → Bool) → R := fun r => log (row_support model r) with hg
    have hleft : log_likelihood_from_support log
        (observation_emission_support model
          (fun i : Fin (aggregate_dataset l).1.length =>
            (aggregate_dataset l).1.get i))
        (fun i => ((aggregate_dataset l).2.getD i 0 : ℚ))
        = ∑ i : Fin (aggregate_dataset l).1.length,
            l.count ((aggregate_dataset l).1.get i)
              • g ((aggregate_dataset l).1.get i) := by
      unfold log_likelihood_from_support
      refine Finset.sum_congr rfl fun i _ => ?_
      beta_reduce
      rw [aggregate_weights_eq_count l i, nsmul_eq_mul, mul_comm]
      push_cast
      rfl
    have hright : (l.map g).sum
        = ∑ n : Fin N, log (∑ k, observation_emission_support model rows n k) := by
      rw [hl]
      unfold dataset_row_list
      rw [List.map_map, ← Fin.sum_univ_def]
      exact Finset.sum_congr rfl fun n _ => by rw [support_row_sum]; rfl
    rw [hleft, sum_unique_weighted l g, hright]
  · rw [dif_neg h, dif_neg h]

/-- C3: when the dataset's column count differs from the model's `D`, each of
`fit`, `log_likelihood`, `AIC`, `BIC`, `soft_assignment` and
`hard_assignment` fails with the dimension-mismatch error; in particular
`fit` returns no updated model, so the model's parameters are untouched. -/
theorem dimension_mismatch_errors {R : Type} [LinearOrderedField R]
    (log : ℚ → R) {K D N Dp : ℕ} (model : BernoulliMixture K D)
    (dataset : Fin N → Fin Dp → Bool) (h : Dp ≠ D) (iteration_limit : ℕ)
    (convergence_threshold : R) (trace_likelihood : Bool) :
    fit log model dataset iteration_limit convergence_threshold trace_likelihood
        = .error "The dataset shape does not match number of dimensions."
    ∧ log_likelihood log model dataset
        = .error "The dataset shape does not match number of dimensions."
    ∧ AIC log model dataset
        = .error "The dataset shape does not match number of dimensions."
    ∧ BIC log model dataset
        = .error "The dataset shape does not match number of dimensions."
    ∧ soft_assignment model dataset
        = .error "The dataset shape does not match number of dimensions."
    ∧ hard_assignment model dataset
        = .error "The dataset shape does not match number of dimensions." := by
  refine ⟨?_, ?_, ?_, ?_, ?_, ?_⟩ <;>
    simp [fit, log_likelihood, AIC, BIC, soft_assignment, hard_assignment, h,
      Except.map]

/-- A concrete `K = 1`, `D = 2` model used as a witness input. -/
def model_d2 : BernoulliMixture 1 2 :=
  { mixing_coefficients := fun _ => 1, emission_probabilities := fun _ _ => 1 }

/-- Witness for C3: a one-column dataset fed to a two-dimensional model. -/
theorem dimension_mismatch_errors_witness :
    (1 : ℕ) ≠ 2
    ∧ fit (fun _ => (0 : ℚ)) model_d2 rows_one 5 1 false
        = .error "The dataset shape does not match number of dimensions."
    ∧ log_likelihood (fun _ => (0 : ℚ)) model_d2 rows_one
        = .error "The dataset shape does not match number of dimensions."
    ∧ soft_assignment model_d2 rows_one
        = .error "The dataset shape does not match number of dimensions." := by
  have h := dimension_mismatch_errors (fun _ => (0 : ℚ)) model_d2 rows_one
    (by decide) 5 1 false
  exact ⟨by decide, h.1, h.2.1, h.2.2.2.2.1⟩

/-- The left-to-right best-index scan of `argmax_go` returns an index with
maximal value among all indices, and strictly greater value than every
earlier index, under the scan invariants. -/
theorem argmax_go_spec {K : ℕ} (v : Fin K → ℚ) :
    ∀ (l : List (Fin K)) (b : Fin K), l.Pairwise (· < ·) →
      (∀ k ∈ l, b ≤ k) →
      (∀ m : Fin K, m ∉ l → v m ≤ v b) →
      (∀ m : Fin K, m < b → m ∉ l → v m < v b) →
      (∀ m, v m ≤ v (argmax_go v l b))
        ∧ (∀ m, m < argmax_go v l b → v m < v (argmax_go v l b)) := by
  intro l
  induction l with
  | nil =>
    intro b _ _ hinv hstrict
    refine ⟨fun m => hinv m (List.not_mem_nil m), fun m hm => ?_⟩
    exact hstrict m hm (List.not_mem_nil m)
  | cons i l ih =>
    intro b hsorted hge hinv hstrict
    have hsorted' := (List.pairwise_cons.mp hsorted).2
    have hhead := (List.pairwise_cons.mp hsorted).1
    have hgo : argmax_go v (i :: l) b
        = argmax_go v l (if v b < v i then i else b) := rfl
    rw [hgo]
    by_cases hc : v b < v i
    · rw [if_pos hc]
      refine ih i hsorted' (fun k hk => le_of_lt (hhead k hk)) ?_ ?_
      · intro m hm
        by_cases hmi : m = i
        · exact le_of_eq (congrArg v hmi)
        · have : m ∉ i :: l := by
            simp only [List.mem_cons, not_or]
            exact ⟨hmi, hm⟩
          exact le_of_lt (lt_of_le_of_lt (hinv m this) hc)
      · intro m hmi hm
        by_cases hmi' : m = i
        · exact absurd (hmi' ▸ hmi) (lt_irrefl i)
        · have : m ∉ i :: l := by
            simp only [List.mem_cons, not_or]
            exact ⟨hmi', hm⟩
          exact lt_of_le_of_lt (hinv m this) hc
    · rw [if_neg hc]
      refine ih b hsorted' (fun k hk => hge k (List.mem_cons_of_mem i hk)) ?_ ?_
      · intro m hm
        by_cases hmi : m = i
        · exact hmi ▸ not_lt.mp hc
        · have : m ∉ i :: l := by
            simp only [List.mem_cons, not_or]
            exact ⟨hmi, hm⟩
          exact hinv m this
      · intro m hmb hm
        by_cases hmi : m = i
        · exact absurd (hmi ▸ hmb) (not_lt.mpr (hge i (List.mem_cons_self i l)))
        · have : m ∉ i :: l := by
            simp only [List.mem_cons, not_or]
            exact ⟨hmi, hm⟩
          exact hstrict m hmb this

/-- If `np_argmax` returns an index, that index attains the maximum of the
row, and every strictly earlier index carries a strictly smaller value: the
first maximal index, exactly `np.argmax`. -/
theorem np_argmax_spec {K : ℕ} (v : Fin K → ℚ) (j : Fin K)
    (hj : np_argmax v = some j) :
    (∀ k, v k ≤ v j) ∧ (∀ k, k < j → v k < v j) := by
  unfold np_argmax at hj
  by_cases h : 0 < K
  · rw [dif_pos h, Option.some.injEq] at hj
    have := argmax_go_spec v (List.finRange K) ⟨0, h⟩
      (List.pairwise_lt_finRange K)
      (fun k _ => Fin.mk_le_of_le_val (Nat.zero_le _))
      (fun m hm => absurd (List.mem_finRange m) hm)
      (fun m _ hm => absurd (List.mem_finRange m) hm)
    exact hj ▸ this
  · rw [dif_neg h] at hj
    exact absurd hj (by simp)

/-- C9: on a dimension-matching dataset whose rows all have strictly positive
total support, `soft_assignment` succeeds with rows summing to `1`, and
`hard_assignment` is exactly `np_argmax` of the corresponding
`soft_assignment` row — an index attaining the row maximum, the first such
index. -/
theorem assignment_consistency {K D N : ℕ} (model : BernoulliMixture K D)
    (dataset : Fin N → Fin D → Bool)
    (hpos : ∀ n, 0 < ∑ k, observation_emission_support model dataset n k) :
    ∃ probs, soft_assignment model dataset = .ok probs
      ∧ (∀ n, ∑ k, probs n k = 1)
      ∧ hard_assignment model dataset = .ok (fun n => np_argmax (probs n))
      ∧ (∀ n j, np_argmax (probs n) = some j →
          (∀ k, probs n k ≤ probs n j) ∧ (∀ k, k < j → probs n k < probs n j)) := by
  refine ⟨posterior_probability_of_class_given_support
    (observation_emission_support model dataset), ?_, ?_, ?_, ?_⟩
  · simp [soft_assignment]
    rfl
  · intro n
    unfold posterior_probability_of_class_given_support
    rw [← Finset.sum_div, div_self (ne_of_gt (hpos n))]
  · simp [hard_assignment, soft_assignment, Except.map]
    rfl
  · intro n j hj
    exact np_argmax_spec _ j hj

/-- A concrete `K = 1`, `D = 1` model used as a witness input. -/
def model_one : BernoulliMixture 1 1 :=
  { mixing_coefficients := fun _ => 1, emission_probabilities := fun _ _ => 1 }

/-- Witness for C9 at a concrete input with strictly positive support. -/
theorem assignment_consistency_witness :
    (∀ n, 0 < ∑ k, observation_emission_support model_one rows_one n k)
    ∧ ∃ probs, soft_assignment model_one rows_one = .ok probs
      ∧ (∀ n, ∑ k, probs n k = 1)
      ∧ hard_assignment model_one rows_one = .ok (fun n => np_argmax (probs n))
      ∧ (∀ n j, np_argmax (probs n) = some j →
          (∀ k, probs n k ≤ probs n j)
            ∧ (∀ k, k < j → probs n k < probs n j)) :=
  ⟨by simp [observation_emission_support, bernoulli_prob_for_observations,
      rows_one, model_one],
   assignment_consistency model_one rows_one
    (by simp [observation_emission_support, bernoulli_prob_for_observations,
      rows_one, model_one])⟩

/-- The log-likelihood that one pass of the `fit` loop computes from the
model's current parameters over the aggregated rows. -/
def fit_current_log_likelihood {R : Type} [LinearOrderedField R] (log : ℚ → R)
    {K D M : ℕ} (unique_dataset : Fin M → Fin D → Bool) (counts : Fin M → ℚ)
    (model : BernoulliMixture K D) : R :=
  log_likelihood_from_support log
    (observation_emission_support model unique_dataset) counts

/-- C1: the `fit` loop declares convergence exactly when a previous-iteration
log-likelihood exists and `|current - previous| ≤ convergence_threshold` (an
absolute comparison), stopping immediately with the model that produced the
converged likelihood and without applying a further M-step; a first iteration
(no previous likelihood) never converges; and whenever the loop reports
`converged = true`, the returned log-likelihood is the log-likelihood of the
returned parameters. -/
theorem fit_loop_convergence {R : Type} [LinearOrderedField R] (log : ℚ → R)
    {K D M : ℕ} (unique_dataset : Fin M → Fin D → Bool) (counts : Fin M → ℚ)
    (convergence_threshold : R) (trace_likelihood : Bool) :
    (∀ (fuel : ℕ) (model : BernoulliMixture K D) (p : R)
        (iterations_done : ℕ) (tr : List R),
      fit_loop log unique_dataset counts convergence_threshold trace_likelihood
          (fuel + 1) model (some p) iterations_done tr
        = if |fit_current_log_likelihood log unique_dataset counts model - p|
              ≤ convergence_threshold
          then ⟨model,
            some (fit_current_log_likelihood log unique_dataset counts model),
            true, iterations_done, tr⟩
          else fit_loop log unique_dataset counts convergence_threshold
            trace_likelihood fuel (em_step unique_dataset counts model)
            (some (fit_current_log_likelihood log unique_dataset counts model))
            (iterations_done + 1)
            (if trace_likelihood then
              tr ++ [fit_current_log_likelihood log unique_dataset counts model]
            else tr))
    ∧ (∀ (fuel : ℕ) (model : BernoulliMixture K D) (iterations_done : ℕ)
        (tr : List R),
      fit_loop log unique_dataset counts convergence_threshold trace_likelihood
          (fuel + 1) model none iterations_done tr
        = fit_loop log unique_dataset counts convergence_threshold
            trace_likelihood fuel (em_step unique_dataset counts model)
            (some (fit_current_log_likelihood log unique_dataset counts model))
            (iterations_done + 1)
            (if trace_likelihood then
              tr ++ [fit_current_log_likelihood log unique_dataset counts model]
            else tr))
    ∧ (∀ (fuel : ℕ) (model : BernoulliMixture K D) (previous : Option R)
        (iterations_done : ℕ) (tr : List R),
        (fit_loop log unique_dataset counts convergence_threshold
          trace_likelihood fuel model previous iterations_done tr).converged
            = true →
        (fit_loop log unique_dataset counts convergence_threshold
          trace_likelihood fuel model previous iterations_done
            tr).current_log_likelihood
          = some (fit_current_log_likelihood log unique_dataset counts
              (fit_loop log unique_dataset counts convergence_threshold
                trace_likelihood fuel model previous iterations_done
                  tr).model)) := by
  refine ⟨?_, ?_, ?_⟩
  · intro fuel model p iterations_done tr
    show (let unique_support := observation_emission_support model unique_dataset
      let current := log_likelihood_from_support log unique_support counts
      let proceed := fit_loop log unique_dataset counts convergence_threshold
        trace_likelihood fuel (em_step unique_dataset counts model)
        (some current) (iterations_done + 1)
        (if trace_likelihood then tr ++ [current] else tr)
      if |current - p| ≤ convergence_threshold then
        FitResult.mk model (some current) true iterations_done tr
      else proceed) = _
    rfl
  · intro fuel model iterations_done tr
    rfl
  · intro fuel
    induction fuel with
    | zero =>
      intro model previous iterations_done tr h
      exact absurd h (by simp [fit_loop])
    | succ fuel ih =>
      intro model previous iterations_done tr h
      cases previous with
      | none => exact ih _ _ _ _ h
      | some p =>
        by_cases hc : |log_likelihood_from_support log
            (observation_emission_support model unique_dataset) counts - p|
              ≤ convergence_threshold
        · have heq : fit_loop log unique_dataset counts convergence_threshold
              trace_likelihood (fuel + 1) model (some p) iterations_done tr
              = ⟨model, some (fit_current_log_likelihood log unique_dataset
                  counts model), true, iterations_done, tr⟩ := by
            show (if |log_likelihood_from_support log
                (observation_emission_support model unique_dataset) counts - p|
                  ≤ convergence_threshold then _ else _) = _
            rw [if_pos hc]
            rfl
          rw [heq]
        · have heq : fit_loop log unique_dataset counts convergence_threshold
              trace_likelihood (fuel + 1) model (some p) iterations_done tr
              = fit_loop log unique_dataset counts convergence_threshold
                trace_likelihood fuel (em_step unique_dataset counts model)
                (some (fit_current_log_likelihood log unique_dataset counts
                  model))
                (iterations_done + 1)
                (if trace_likelihood then
                  tr ++ [fit_current_log_likelihood log unique_dataset counts
                    model]
                else tr) := by
            show (if |log_likelihood_from_support log
                (observation_emission_support model unique_dataset) counts - p|
                  ≤ convergence_threshold then _ else _) = _
            rw [if_neg hc]
            rfl
          rw [heq] at h ⊢
          exact ih _ _ _ _ h

/-- Witness for C1: a run that converges on the spot. -/
theorem fit_loop_convergence_witness :
    (fit_loop (fun _ => (0 : ℚ)) rows_one weights_one 1 false 1 model_one
      (some 0) 0 []).converged = true
    ∧ (fit_loop (fun _ => (0 : ℚ)) rows_one weights_one 1 false 1 model_one
        (some 0) 0 []).current_log_likelihood
      = some (fit_current_log_likelihood (fun _ => (0 : ℚ)) rows_one weights_one
          (fit_loop (fun _ => (0 : ℚ)) rows_one weights_one 1 false 1 model_one
            (some 0) 0 []).model) := by
  have hconv : (fit_loop (fun _ => (0 : ℚ)) rows_one weights_one 1 false 1
      model_one (some 0) 0 []).converged = true := by
    simp [fit_loop, log_likelihood_from_support, observation_emission_support,
      bernoulli_prob_for_observations, model_one, rows_one, weights_one]
  exact ⟨hconv,
    (fit_loop_convergence (fun _ => (0 : ℚ)) rows_one weights_one 1 false).2.2
      1 model_one (some 0) 0 [] hconv⟩

/-- Gibbs building block: `p * (log q - log p) ≤ q - p` for positive reals. -/
theorem mul_log_sub_le (p q : ℝ) (hp : 0 < p) (hq : 0 < q) :
    p * Real.log q - p * Real.log p ≤ q - p := by
  have hlog : Real.log (q / p) ≤ q / p - 1 :=
    Real.log_le_sub_one_of_pos (div_pos hq hp)
  rw [Real.log_div (ne_of_gt hq) (ne_of_gt hp)] at hlog
  calc p * Real.log q - p * Real.log p
      = p * (Real.log q - Real.log p) := by ring
    _ ≤ p * (q / p - 1) := mul_le_mul_of_nonneg_left hlog (le_of_lt hp)
    _ = q - p := by field_simp

/-- Gibbs' inequality over a finite index set: with positive weights `p` and
positive values `q` of no larger total mass, the `p`-weighted log of `q` is
at most the `p`-weighted log of `p`. -/
theorem sum_mul_log_le_of_sum_le {ι : Type} (s : Finset ι) (p q : ι → ℝ)
    (hp : ∀ i ∈ s, 0 < p i) (hq : ∀ i ∈ s, 0 < q i)
    (hsum : ∑ i ∈ s, q i ≤ ∑ i ∈ s, p i) :
    ∑ i ∈ s, p i * Real.log (q i) ≤ ∑ i ∈ s, p i * Real.log (p i) := by
  have key : ∀ i ∈ s, p i * Real.log (q i) - p i * Real.log (p i)
      ≤ q i - p i := fun i hi => mul_log_sub_le _ _ (hp i hi) (hq i hi)
  have h2 : ∑ i ∈ s, (p i * Real.log (q i) - p i * Real.log (p i))
      ≤ ∑ i ∈ s, (q i - p i) := Finset.sum_le_sum key
  rw [Finset.sum_sub_distrib, Finset.sum_sub_distrib] at h2
  linarith

/-- Two-point Gibbs inequality. -/
theorem two_point_gibbs (p1 p2 q1 q2 : ℝ) (hp1 : 0 < p1) (hp2 : 0 < p2)
    (hq1 : 0 < q1) (hq2 : 0 < q2) (hsum : q1 + q2 ≤ p1 + p2) :
    p1 * Real.log q1 + p2 * Real.log q2
      ≤ p1 * Real.log p1 + p2 * Real.log p2 := by
  have h1 := mul_log_sub_le p1 q1 hp1 hq1
  have h2 := mul_log_sub_le p2 q2 hp2 hq2
  linarith

/-- The Bernoulli M-step term inequality: replacing an emission probability
`e` by the weighted maximum-likelihood estimate `c / u` does not decrease
`c * log e + (u - c) * log (1 - e)`, including the boundary cases `c = 0` and
`c = u` (where the estimate lands on `0` or `1`).  The two conditional
hypotheses record that a positive (resp. deficient) count forces the old
emission probability off the opposing boundary. -/
theorem bernoulli_update_term_le (u c e : ℝ) (hu : 0 < u) (hc0 : 0 ≤ c)
    (hcu : c ≤ u) (he0 : 0 ≤ e) (he1 : e ≤ 1)
    (hce : 0 < c → 0 < e) (hce1 : c < u → e < 1) :
    c * Real.log e + (u - c) * Real.log (1 - e)
      ≤ c * Real.log (c / u) + (u - c) * Real.log (1 - c / u) := by
  rcases eq_or_lt_of_le hc0 with hc | hc
  · -- c = 0: the estimate is 0 and the goal reduces to u * log (1 - e) ≤ 0
    rw [← hc]
    simp only [zero_mul, zero_add, sub_zero, zero_div, Real.log_one, mul_zero]
    have hlog : Real.log (1 - e) ≤ 0 := Real.log_nonpos (by linarith) (by linarith)
    nlinarith
  · rcases eq_or_lt_of_le hcu with hc2 | hc2
    · -- c = u: the estimate is 1 and the goal reduces to u * log e ≤ 0
      have hepos : 0 < e := hce hc
      have hloge : Real.log e ≤ 0 := Real.log_nonpos he0 he1
      rw [hc2, div_self (ne_of_gt hu), sub_self, Real.log_one]
      simp only [mul_zero, zero_mul, add_zero, zero_add]
      nlinarith
    · -- 0 < c < u: the interior case, by the two-point Gibbs inequality
      have hepos : 0 < e := hce hc
      have helt : e < 1 := hce1 hc2
      have h1me : 0 < 1 - e := by linarith
      have hgibbs := two_point_gibbs c (u - c) (e * u) ((1 - e) * u)
        hc (by linarith) (mul_pos hepos hu) (mul_pos h1me hu) (by nlinarith)
      have hL1 : Real.log (e * u) = Real.log e + Real.log u :=
        Real.log_mul (ne_of_gt hepos) (ne_of_gt hu)
      have hL2 : Real.log ((1 - e) * u) = Real.log (1 - e) + Real.log u :=
        Real.log_mul (ne_of_gt h1me) (ne_of_gt hu)
      have hE2 : Real.log (c / u) = Real.log c - Real.log u :=
        Real.log_div (ne_of_gt hc) (ne_of_gt hu)
      have hE2c : Real.log (1 - c / u) = Real.log (u - c) - Real.log u := by
        have hfrac : 1 - c / u = (u - c) / u := by
          field_simp
        rw [hfrac, Real.log_div (ne_of_gt (by linarith)) (ne_of_gt hu)]
      rw [hL1, hL2] at hgibbs
      rw [hE2, hE2c]
      nlinarith [hgibbs]

/-- The one-iteration EM monotonicity argument over the reals: given the
E-step responsibilities `z`, effective counts `u`, weighted feature counts
`c`, and the M-step updates `pi2 = u / W`, `e2 = c / u` computed from a valid
model `(pi1, e1)` (entries in the closed unit interval, mixing summing to 1)
on a positively weighted boolean dataset, the weighted observed-data
log-likelihood does not decrease — provided no row has zero total support and
no component has zero effective weight, the two degenerate situations the
spec leaves open.  Boundary emission probabilities and constant dataset
columns are covered. -/
theorem em_real {M K D : ℕ}
    (w : Fin M → ℝ) (x : Fin M → Fin D → Bool)
    (pi1 : Fin K → ℝ) (e1 : Fin K → Fin D → ℝ)
    (hw : ∀ i, 0 < w i) (hpi0 : ∀ k, 0 ≤ pi1 k) (hpisum : ∑ k, pi1 k = 1)
    (he01 : ∀ k d, 0 ≤ e1 k d ∧ e1 k d ≤ 1)
    (s : Fin M → Fin K → ℝ)
    (hs : ∀ i k, s i k = pi1 k * ∏ d, (if x i d then e1 k d else 1 - e1 k d))
    (hSpos : ∀ i, 0 < ∑ j, s i j)
    (z : Fin M → Fin K → ℝ) (hz : ∀ i k, z i k = s i k / ∑ j, s i j)
    (u : Fin K → ℝ) (hu : ∀ k, u k = ∑ i, z i k * w i)
    (hupos : ∀ k, 0 < u k)
    (c : Fin K → Fin D → ℝ)
    (hc : ∀ k d, c k d = ∑ i, w i * z i k * (if x i d then 1 else 0))
    (pi2 : Fin K → ℝ) (hp2 : ∀ k, pi2 k = u k / ∑ i, w i)
    (e2 : Fin K → Fin D → ℝ) (he2 : ∀ k d, e2 k d = c k d / u k) :
    ∑ i, w i * Real.log (∑ j, s i j)
      ≤ ∑ i, w i * Real.log
          (∑ k, pi2 k * ∏ d, (if x i d then e2 k d else 1 - e2 k d)) := by
  rcases Nat.eq_zero_or_pos K with hK0 | hK
  · -- no components: both likelihoods are the same degenerate constant
    subst hK0
    simp
  have hM : 0 < M := by
    by_contra hM0
    have hMz : M = 0 := Nat.eq_zero_of_not_pos hM0
    have h0 := hupos ⟨0, hK⟩
    rw [hu] at h0
    subst hMz
    simp at h0
  -- nonnegativity of the old support and responsibilities
  have hB1nonneg : ∀ i k d, 0 ≤ (if x i d then e1 k d else 1 - e1 k d) := by
    intro i k d
    by_cases hxd : x i d
    · rw [if_pos hxd]; exact (he01 k d).1
    · rw [if_neg hxd]; have := (he01 k d).2; linarith
  have hsnonneg : ∀ i k, 0 ≤ s i k := by
    intro i k
    rw [hs]
    exact mul_nonneg (hpi0 k) (Finset.prod_nonneg fun d _ => hB1nonneg i k d)
  have hznonneg : ∀ i k, 0 ≤ z i k := by
    intro i k
    rw [hz]
    exact div_nonneg (hsnonneg i k) (le_of_lt (hSpos i))
  have hzsum : ∀ i, ∑ k, z i k = 1 := by
    intro i
    have hzz : ∀ k, z i k = s i k / ∑ j, s i j := fun k => hz i k
    rw [Finset.sum_congr rfl fun k _ => hzz k, ← Finset.sum_div,
      div_self (ne_of_gt (hSpos i))]
  have hzs : ∀ i k, 0 < z i k → 0 < s i k := by
    intro i k hzik
    rcases lt_or_eq_of_le (hsnonneg i k) with h | h
    · exact h
    · exfalso
      rw [hz, ← h, zero_div] at hzik
      exact lt_irrefl _ hzik
  have hWpos : 0 < ∑ i, w i :=
    Finset.sum_pos (fun i _ => hw i) ⟨⟨0, hM⟩, Finset.mem_univ _⟩
  have hwz : ∀ k, (∑ i, w i * z i k) = u k := by
    intro k
    rw [hu]
    exact Finset.sum_congr rfl fun i _ => mul_comm _ _
  have huW : ∑ k, u k = ∑ i, w i := by
    have huu : ∀ k, u k = ∑ i, z i k * w i := fun k => hu k
    rw [Finset.sum_congr rfl fun k _ => huu k, Finset.sum_comm]
    refine Finset.sum_congr rfl fun i _ => ?_
    rw [← Finset.sum_mul, hzsum i, one_mul]
  -- a positive effective weight forces a positive mixing coefficient
  have hpipos : ∀ k, 0 < pi1 k := by
    intro k
    have h1 : (∑ _j : Fin M, (0 : ℝ)) < ∑ i, z i k * w i := by
      have := hupos k
      rw [hu] at this
      simpa using this
    obtain ⟨i, -, hi⟩ := Finset.exists_lt_of_sum_lt h1
    have hzik : 0 < z i k := by
      rcases lt_or_eq_of_le (hznonneg i k) with h | h
      · exact h
      · exfalso
        rw [← h, zero_mul] at hi
        exact lt_irrefl _ hi
    have hsik := hzs i k hzik
    rcases lt_or_eq_of_le (hpi0 k) with h | h
    · exact h
    · exfalso
      rw [hs, ← h, zero_mul] at hsik
      exact lt_irrefl _ hsik
  -- the weighted feature counts sit inside [0, u k]
  have hcnonneg : ∀ k d, 0 ≤ c k d := by
    intro k d
    rw [hc]
    refine Finset.sum_nonneg fun i _ => ?_
    by_cases hxd : x i d
    · simp only [hxd, if_true, mul_one]
      exact mul_nonneg (le_of_lt (hw i)) (hznonneg i k)
    · simp only [hxd, Bool.false_eq_true, if_false, mul_zero]
      exact le_refl 0
  have hucdiff : ∀ k d, u k - c k d
      = ∑ i, w i * z i k * (1 - if x i d then (1 : ℝ) else 0) := by
    intro k d
    rw [hc, ← hwz k, ← Finset.sum_sub_distrib]
    exact Finset.sum_congr rfl fun i _ => by ring
  have hcu : ∀ k d, c k d ≤ u k := by
    intro k d
    have h0 : 0 ≤ u k - c k d := by
      rw [hucdiff]
      refine Finset.sum_nonneg fun i _ => ?_
      by_cases hxd : x i d
      · simp only [hxd, if_true, sub_self, mul_zero]
        exact le_refl 0
      · simp only [hxd, Bool.false_eq_true, if_false, sub_zero, mul_one]
        exact mul_nonneg (le_of_lt (hw i)) (hznonneg i k)
    linarith
  have hpi2pos : ∀ k, 0 < pi2 k := by
    intro k
    rw [hp2]
    exact div_pos (hupos k) hWpos
  have he2nonneg : ∀ k d, 0 ≤ e2 k d := by
    intro k d
    rw [he2]
    exact div_nonneg (hcnonneg k d) (le_of_lt (hupos k))
  have he2le : ∀ k d, e2 k d ≤ 1 := by
    intro k d
    rw [he2, div_le_one (hupos k)]
    exact hcu k d
  have hB2nonneg : ∀ i k d, 0 ≤ (if x i d then e2 k d else 1 - e2 k d) := by
    intro i k d
    by_cases hxd : x i d
    · rw [if_pos hxd]; exact he2nonneg k d
    · rw [if_neg hxd]; have := he2le k d; linarith
  -- single-row lower bounds on the feature counts
  have hc_ge : ∀ i k d, x i d = true → w i * z i k ≤ c k d := by
    intro i k d hxd
    rw [hc]
    have hnn : ∀ j ∈ Finset.univ,
        0 ≤ w j * z j k * (if x j d then (1 : ℝ) else 0) := by
      intro j _
      by_cases hxj : x j d
      · simp only [hxj, if_true, mul_one]
        exact mul_nonneg (le_of_lt (hw j)) (hznonneg j k)
      · simp only [hxj, Bool.false_eq_true, if_false, mul_zero]
        exact le_refl 0
    have hle := Finset.single_le_sum hnn (Finset.mem_univ i)
    simpa [hxd] using hle
  have huc_ge : ∀ i k d, x i d = false → w i * z i k ≤ u k - c k d := by
    intro i k d hxd
    rw [hucdiff]
    have hnn : ∀ j ∈ Finset.univ,
        0 ≤ w j * z j k * (1 - if x j d then (1 : ℝ) else 0) := by
      intro j _
      by_cases hxj : x j d
      · simp only [hxj, if_true, sub_self, mul_zero]
        exact le_refl 0
      · simp only [hxj, Bool.false_eq_true, if_false, sub_zero, mul_one]
        exact mul_nonneg (le_of_lt (hw j)) (hznonneg j k)
    have hle := Finset.single_le_sum hnn (Finset.mem_univ i)
    simpa [hxd] using hle
  -- the updated support: nonnegative, and positive wherever z is positive
  set s2 : Fin M → Fin K → ℝ :=
    fun i k => pi2 k * ∏ d, (if x i d then e2 k d else 1 - e2 k d) with hs2
  have hs2nonneg : ∀ i k, 0 ≤ s2 i k := by
    intro i k
    exact mul_nonneg (le_of_lt (hpi2pos k))
      (Finset.prod_nonneg fun d _ => hB2nonneg i k d)
  have hB2pos_of : ∀ i k, 0 < z i k →
      ∀ d, 0 < (if x i d then e2 k d else 1 - e2 k d) := by
    intro i k hzik d
    have hwzpos : 0 < w i * z i k := mul_pos (hw i) hzik
    by_cases hxd : x i d
    · rw [if_pos hxd, he2]
      exact div_pos (lt_of_lt_of_le hwzpos (hc_ge i k d hxd)) (hupos k)
    · rw [if_neg hxd]
      have huc : 0 < u k - c k d :=
        lt_of_lt_of_le hwzpos (huc_ge i k d (by simpa using hxd))
      have hfrac : 1 - e2 k d = (u k - c k d) / u k := by
        rw [he2, eq_div_iff (ne_of_gt (hupos k)), sub_mul,
          div_mul_cancel₀ _ (ne_of_gt (hupos k)), one_mul]
      rw [hfrac]
      exact div_pos huc (hupos k)
  have hs2pos_of : ∀ i k, 0 < z i k → 0 < s2 i k := by
    intro i k hzik
    exact mul_pos (hpi2pos k) (Finset.prod_pos fun d _ => hB2pos_of i k hzik d)
  have hexistsz : ∀ i, ∃ k, 0 < z i k := by
    intro i
    have h1 : (∑ _j : Fin K, (0 : ℝ)) < ∑ k, z i k := by
      rw [hzsum i]
      simp
    obtain ⟨k, -, hk⟩ := Finset.exists_lt_of_sum_lt h1
    exact ⟨k, hk⟩
  have hS2pos : ∀ i, 0 < ∑ j, s2 i j := by
    intro i
    obtain ⟨k, hk⟩ := hexistsz i
    exact Finset.sum_pos' (fun j _ => hs2nonneg i j)
      ⟨k, Finset.mem_univ _, hs2pos_of i k hk⟩
  -- Step 1: per-row Jensen bound over the support of the responsibility row
  have step1 : ∀ i, ∑ k, z i k * (Real.log (s2 i k) - Real.log (s i k))
      ≤ Real.log (∑ j, s2 i j) - Real.log (∑ j, s i j) := by
    intro i
    set P : Finset (Fin K) := Finset.univ.filter (fun k => 0 < z i k) with hP
    have hmemP : ∀ k, k ∈ P ↔ 0 < z i k := by
      intro k
      simp [hP]
    have hfilter : ∀ f : Fin K → ℝ, (∀ k, z i k = 0 → f k = 0) →
        ∑ k ∈ P, f k = ∑ k, f k := by
      intro f hf
      rw [hP]
      refine Finset.sum_filter_of_ne fun k _ hfk => ?_
      rcases lt_or_eq_of_le (hznonneg i k) with h | h
      · exact h
      · exact absurd (hf k h.symm) hfk
    have hzsumP : ∑ k ∈ P, z i k = 1 := by
      rw [hfilter (fun k => z i k) (fun k h => h), hzsum i]
    have hA : ∑ k ∈ P, z i k * (Real.log (s i k) - Real.log (z i k))
        = Real.log (∑ j, s i j) := by
      have hterm : ∀ k ∈ P, z i k * (Real.log (s i k) - Real.log (z i k))
          = z i k * Real.log (∑ j, s i j) := by
        intro k hk
        have hzik := (hmemP k).mp hk
        have hsik : s i k = z i k * (∑ j, s i j) := by
          rw [hz]
          exact (div_mul_cancel₀ _ (ne_of_gt (hSpos i))).symm
        rw [hsik, Real.log_mul (ne_of_gt hzik) (ne_of_gt (hSpos i))]
        ring
      rw [Finset.sum_congr rfl hterm, ← Finset.sum_mul, hzsumP, one_mul]
    have hB : ∑ k ∈ P, z i k * (Real.log (s2 i k) - Real.log (z i k))
        ≤ Real.log (∑ j, s2 i j) := by
      have hsub : ∑ k ∈ P, s2 i k ≤ ∑ j, s2 i j :=
        Finset.sum_le_sum_of_subset_of_nonneg (Finset.filter_subset _ _)
          (fun j _ _ => hs2nonneg i j)
      have hgibbs := sum_mul_log_le_of_sum_le P (fun k => z i k)
        (fun k => s2 i k / ∑ j, s2 i j)
        (fun k hk => (hmemP k).mp hk)
        (fun k hk => div_pos (hs2pos_of i k ((hmemP k).mp hk)) (hS2pos i))
        (by
          rw [← Finset.sum_div, hzsumP]
          exact div_le_one_of_le hsub (le_of_lt (hS2pos i)))
      have hexp : ∀ k ∈ P, z i k * Real.log (s2 i k / ∑ j, s2 i j)
          = z i k * Real.log (s2 i k) - z i k * Real.log (∑ j, s2 i j) := by
        intro k hk
        rw [Real.log_div (ne_of_gt (hs2pos_of i k ((hmemP k).mp hk)))
          (ne_of_gt (hS2pos i))]
        ring
      rw [Finset.sum_congr rfl hexp, Finset.sum_sub_distrib,
        ← Finset.sum_mul, hzsumP, one_mul] at hgibbs
      have hsplit : ∑ k ∈ P, z i k * (Real.log (s2 i k) - Real.log (z i k))
          = (∑ k ∈ P, z i k * Real.log (s2 i k))
            - ∑ k ∈ P, z i k * Real.log (z i k) := by
        rw [← Finset.sum_sub_distrib]
        exact Finset.sum_congr rfl fun k _ => by ring
      rw [hsplit]
      linarith
    have hfull : ∑ k, z i k * (Real.log (s2 i k) - Real.log (s i k))
        = ∑ k ∈ P, z i k * (Real.log (s2 i k) - Real.log (s i k)) :=
      (hfilter _ (fun k h => by rw [h, zero_mul])).symm
    have hdiff : ∑ k ∈ P, z i k * (Real.log (s2 i k) - Real.log (s i k))
        = (∑ k ∈ P, z i k * (Real.log (s2 i k) - Real.log (z i k)))
          - ∑ k ∈ P, z i k * (Real.log (s i k) - Real.log (z i k)) := by
      rw [← Finset.sum_sub_distrib]
      exact Finset.sum_congr rfl fun k _ => by ring
    rw [hfull, hdiff, hA]
    linarith
  -- Step 2a: the M-step mixing update maximises the mixing term
  have step2a : ∑ k, u k * Real.log (pi1 k) ≤ ∑ k, u k * Real.log (pi2 k) := by
    have hgibbs := sum_mul_log_le_of_sum_le Finset.univ u
      (fun k => pi1 k * ∑ i, w i)
      (fun k _ => hupos k) (fun k _ => mul_pos (hpipos k) hWpos)
      (by rw [← Finset.sum_mul, hpisum, one_mul, huW])
    have hexp : ∀ k, u k * Real.log (pi1 k * ∑ i, w i)
        = u k * Real.log (pi1 k) + u k * Real.log (∑ i, w i) := by
      intro k
      rw [Real.log_mul (ne_of_gt (hpipos k)) (ne_of_gt hWpos)]
      ring
    rw [Finset.sum_congr rfl fun k _ => hexp k, Finset.sum_add_distrib,
      ← Finset.sum_mul, huW] at hgibbs
    have hexp2 : ∀ k, u k * Real.log (pi2 k)
        = u k * Real.log (u k) - u k * Real.log (∑ i, w i) := by
      intro k
      rw [hp2, Real.log_div (ne_of_gt (hupos k)) (ne_of_gt hWpos)]
      ring
    rw [Finset.sum_congr rfl fun k _ => hexp2 k, Finset.sum_sub_distrib,
      ← Finset.sum_mul, huW]
    linarith
  -- a positive count forces the old emission off 0; a deficit forces it off 1
  have hce_fact : ∀ k d, 0 < c k d → 0 < e1 k d := by
    intro k d hckd
    have h1 : (∑ _j : Fin M, (0 : ℝ))
        < ∑ i, w i * z i k * (if x i d then (1 : ℝ) else 0) := by
      rw [← hc]
      simpa using hckd
    obtain ⟨i, -, hi⟩ := Finset.exists_lt_of_sum_lt h1
    by_cases hxd : x i d
    · simp only [hxd, if_true, mul_one] at hi
      have hzik : 0 < z i k := by
        rcases lt_or_eq_of_le (hznonneg i k) with h | h
        · exact h
        · exfalso
          rw [← h, mul_zero] at hi
          exact lt_irrefl _ hi
      have hsik := hzs i k hzik
      have hprod : (∏ d2, (if x i d2 then e1 k d2 else 1 - e1 k d2)) ≠ 0 := by
        intro h0
        rw [hs, h0, mul_zero] at hsik
        exact lt_irrefl _ hsik
      have hfac := Finset.prod_ne_zero_iff.mp hprod d (Finset.mem_univ d)
      rw [if_pos hxd] at hfac
      exact lt_of_le_of_ne (he01 k d).1 (Ne.symm hfac)
    · simp only [hxd, Bool.false_eq_true, if_false, mul_zero] at hi
      exact absurd hi (lt_irrefl 0)
  have hce1_fact : ∀ k d, c k d < u k → e1 k d < 1 := by
    intro k d hlt
    have h1 : (∑ _j : Fin M, (0 : ℝ))
        < ∑ i, w i * z i k * (1 - if x i d then (1 : ℝ) else 0) := by
      rw [← hucdiff]
      simpa using sub_pos.mpr hlt
    obtain ⟨i, -, hi⟩ := Finset.exists_lt_of_sum_lt h1
    by_cases hxd : x i d
    · simp only [hxd, if_true, sub_self, mul_zero] at hi
      exact absurd hi (lt_irrefl 0)
    · simp only [hxd, Bool.false_eq_true, if_false, sub_zero, mul_one] at hi
      have hzik : 0 < z i k := by
        rcases lt_or_eq_of_le (hznonneg i k) with h | h
        · exact h
        · exfalso
          rw [← h, mul_zero] at hi
          exact lt_irrefl _ hi
      have hsik := hzs i k hzik
      have hprod : (∏ d2, (if x i d2 then e1 k d2 else 1 - e1 k d2)) ≠ 0 := by
        intro h0
        rw [hs, h0, mul_zero] at hsik
        exact lt_irrefl _ hsik
      have hfac := Finset.prod_ne_zero_iff.mp hprod d (Finset.mem_univ d)
      rw [if_neg hxd] at hfac
      have hnn : 0 ≤ 1 - e1 k d := by
        have := (he01 k d).2
        linarith
      have := lt_of_le_of_ne hnn (Ne.symm hfac)
      linarith
  -- Step 2b: the M-step emission update maximises each Bernoulli term
  have step2b : ∀ k d,
      c k d * Real.log (e1 k d) + (u k - c k d) * Real.log (1 - e1 k d)
        ≤ c k d * Real.log (e2 k d)
          + (u k - c k d) * Real.log (1 - e2 k d) := by
    intro k d
    have h := bernoulli_update_term_le (u k) (c k d) (e1 k d) (hupos k)
      (hcnonneg k d) (hcu k d) (he01 k d).1 (he01 k d).2
      (hce_fact k d) (hce1_fact k d)
    rw [he2 k d]
    exact h
  -- decomposition of the improvement, valid termwise thanks to the z factor
  have hdecomp : ∀ i k, w i * (z i k * (Real.log (s2 i k) - Real.log (s i k)))
      = w i * z i k * (Real.log (pi2 k) - Real.log (pi1 k))
        + ∑ d, w i * z i k *
            ((if x i d then Real.log (e2 k d) else Real.log (1 - e2 k d))
              - (if x i d then Real.log (e1 k d)
                 else Real.log (1 - e1 k d))) := by
    intro i k
    rcases lt_or_eq_of_le (hznonneg i k) with hzik | hzik
    · have hsik := hzs i k hzik
      have hprod1 : (∏ d, (if x i d then e1 k d else 1 - e1 k d)) ≠ 0 := by
        intro h0
        rw [hs, h0, mul_zero] at hsik
        exact lt_irrefl _ hsik
      have hfac1 : ∀ d, (if x i d then e1 k d else 1 - e1 k d) ≠ 0 :=
        fun d => Finset.prod_ne_zero_iff.mp hprod1 d (Finset.mem_univ d)
      have hlog1 : Real.log (s i k) = Real.log (pi1 k)
          + ∑ d, Real.log (if x i d then e1 k d else 1 - e1 k d) := by
        rw [hs, Real.log_mul (ne_of_gt (hpipos k)) hprod1,
          Real.log_prod _ _ fun d _ => hfac1 d]
      have hfac2 : ∀ d, 0 < (if x i d then e2 k d else 1 - e2 k d) :=
        hB2pos_of i k hzik
      have hlog2 : Real.log (s2 i k) = Real.log (pi2 k)
          + ∑ d, Real.log (if x i d then e2 k d else 1 - e2 k d) := by
        show Real.log (pi2 k * ∏ d, (if x i d then e2 k d else 1 - e2 k d)) = _
        rw [Real.log_mul (ne_of_gt (hpi2pos k))
          (ne_of_gt (Finset.prod_pos fun d _ => hfac2 d)),
          Real.log_prod _ _ fun d _ => ne_of_gt (hfac2 d)]
      have hite1 : ∀ d, Real.log (if x i d then e1 k d else 1 - e1 k d)
          = (if x i d then Real.log (e1 k d) else Real.log (1 - e1 k d)) := by
        intro d
        by_cases hxd : x i d
        · rw [if_pos hxd, if_pos hxd]
        · rw [if_neg hxd, if_neg hxd]
      have hite2 : ∀ d, Real.log (if x i d then e2 k d else 1 - e2 k d)
          = (if x i d then Real.log (e2 k d) else Real.log (1 - e2 k d)) := by
        intro d
        by_cases hxd : x i d
        · rw [if_pos hxd, if_pos hxd]
        · rw [if_neg hxd, if_neg hxd]
      have hR : ∑ d, w i * z i k *
          ((if x i d then Real.log (e2 k d) else Real.log (1 - e2 k d))
            - (if x i d then Real.log (e1 k d)
               else Real.log (1 - e1 k d)))
          = w i * z i k *
            ((∑ d, (if x i d then Real.log (e2 k d)
                else Real.log (1 - e2 k d)))
              - ∑ d, (if x i d then Real.log (e1 k d)
                  else Real.log (1 - e1 k d))) := by
        rw [Finset.sum_congr rfl fun d (_ : d ∈ Finset.univ) =>
            mul_sub (w i * z i k) _ _,
          Finset.sum_sub_distrib, ← Finset.mul_sum, ← Finset.mul_sum,
          ← mul_sub]
      rw [hlog1, hlog2, Finset.sum_congr rfl fun d _ => hite1 d,
        Finset.sum_congr rfl fun d _ => hite2 d, hR]
      ring
    · rw [← hzik]
      simp
  -- the improvement is nonnegative
  have hT : 0 ≤ ∑ i, w i
      * ∑ k, z i k * (Real.log (s2 i k) - Real.log (s i k)) := by
    have hsum_decomp : ∑ i, w i
        * ∑ k, z i k * (Real.log (s2 i k) - Real.log (s i k))
        = (∑ k, u k * (Real.log (pi2 k) - Real.log (pi1 k)))
          + ∑ k, ∑ d,
            (c k d * (Real.log (e2 k d) - Real.log (e1 k d))
              + (u k - c k d)
                * (Real.log (1 - e2 k d) - Real.log (1 - e1 k d))) := by
      have h1 : ∑ i, w i * ∑ k, z i k * (Real.log (s2 i k) - Real.log (s i k))
          = ∑ i, ∑ k,
            (w i * z i k * (Real.log (pi2 k) - Real.log (pi1 k))
              + ∑ d, w i * z i k *
                ((if x i d then Real.log (e2 k d) else Real.log (1 - e2 k d))
                  - (if x i d then Real.log (e1 k d)
                     else Real.log (1 - e1 k d)))) := by
        refine Finset.sum_congr rfl fun i _ => ?_
        rw [Finset.mul_sum]
        exact Finset.sum_congr rfl fun k _ => hdecomp i k
      have h2 : ∀ k, ∑ i, w i * z i k * (Real.log (pi2 k) - Real.log (pi1 k))
          = u k * (Real.log (pi2 k) - Real.log (pi1 k)) := by
        intro k
        rw [← Finset.sum_mul, hwz k]
      have h3 : ∀ k d, ∑ i, w i * z i k *
          ((if x i d then Real.log (e2 k d) else Real.log (1 - e2 k d))
            - (if x i d then Real.log (e1 k d)
               else Real.log (1 - e1 k d)))
          = c k d * (Real.log (e2 k d) - Real.log (e1 k d))
            + (u k - c k d)
              * (Real.log (1 - e2 k d) - Real.log (1 - e1 k d)) := by
        intro k d
        have hterm : ∀ i, w i * z i k *
            ((if x i d then Real.log (e2 k d) else Real.log (1 - e2 k d))
              - (if x i d then Real.log (e1 k d)
                 else Real.log (1 - e1 k d)))
            = w i * z i k * (if x i d then (1 : ℝ) else 0)
                * (Real.log (e2 k d) - Real.log (e1 k d))
              + (w i * z i k
                  - w i * z i k * (if x i d then (1 : ℝ) else 0))
                * (Real.log (1 - e2 k d) - Real.log (1 - e1 k d)) := by
          intro i
          by_cases hxd : x i d
          · simp only [hxd, if_true, mul_one, sub_self, zero_mul, add_zero]
          · simp only [hxd, Bool.false_eq_true, if_false, mul_zero, zero_mul,
              sub_zero, zero_add]
        rw [Finset.sum_congr rfl fun i _ => hterm i, Finset.sum_add_distrib,
          ← Finset.sum_mul, ← Finset.sum_mul, Finset.sum_sub_distrib,
          ← hc k d, hwz k]
      rw [h1, Finset.sum_comm]
      rw [Finset.sum_congr rfl fun k (_ : k ∈ Finset.univ) => Finset.sum_add_distrib]
      rw [Finset.sum_add_distrib]
      congr 1
      · exact Finset.sum_congr rfl fun k _ => h2 k
      · refine Finset.sum_congr rfl fun k _ => ?_
        rw [Finset.sum_comm]
        exact Finset.sum_congr rfl fun d _ => h3 k d
    rw [hsum_decomp]
    have hA' : 0 ≤ ∑ k, u k * (Real.log (pi2 k) - Real.log (pi1 k)) := by
      have hexpand : ∑ k, u k * (Real.log (pi2 k) - Real.log (pi1 k))
          = (∑ k, u k * Real.log (pi2 k)) - ∑ k, u k * Real.log (pi1 k) := by
        rw [← Finset.sum_sub_distrib]
        exact Finset.sum_congr rfl fun k _ => by ring
      rw [hexpand]
      linarith [step2a]
    have hB' : 0 ≤ ∑ k, ∑ d,
        (c k d * (Real.log (e2 k d) - Real.log (e1 k d))
          + (u k - c k d)
            * (Real.log (1 - e2 k d) - Real.log (1 - e1 k d))) := by
      refine Finset.sum_nonneg fun k _ => Finset.sum_nonneg fun d _ => ?_
      have := step2b k d
      nlinarith [this]
    linarith
  -- combine with the per-row Jensen bound
  have hsum1 : ∑ i, w i * ∑ k, z i k * (Real.log (s2 i k) - Real.log (s i k))
      ≤ ∑ i, w i * (Real.log (∑ j, s2 i j) - Real.log (∑ j, s i j)) :=
    Finset.sum_le_sum fun i _ =>
      mul_le_mul_of_nonneg_left (step1 i) (le_of_lt (hw i))
  have hfinal : ∑ i, w i * (Real.log (∑ j, s2 i j) - Real.log (∑ j, s i j))
      = (∑ i, w i * Real.log (∑ j, s2 i j))
        - ∑ i, w i * Real.log (∑ j, s i j) := by
    rw [← Finset.sum_sub_distrib]
    exact Finset.sum_congr rfl fun i _ => by ring
  rw [hfinal] at hsum1
  linarith

/-- C6: one pass of the `fit` loop's E-step/M-step update (exactly as
committed by `fit`) does not decrease the observed-data log-likelihood, with
the true real logarithm, for every valid model (mixing coefficients
nonnegative and summing to 1, emission probabilities anywhere in the closed
interval `[0, 1]`, boundary values included) and every aggregated dataset
with positive weights — excluding only the two degenerate situations the spec
leaves open (§9): a row of zero total support or a component of zero
effective weight, where the Python arithmetic itself is undefined.  Exact
arithmetic makes the sequence monotone outright, which implies the claim's
floating-point tolerance. -/
theorem em_step_log_likelihood_monotone {K D M : ℕ}
    (unique_dataset : Fin M → Fin D → Bool) (counts : Fin M → ℚ)
    (model : BernoulliMixture K D)
    (hw : ∀ i, 0 < counts i)
    (hpi0 : ∀ k, 0 ≤ model.mixing_coefficients k)
    (hpisum : ∑ k, model.mixing_coefficients k = 1)
    (he01 : ∀ k d, 0 ≤ model.emission_probabilities k d
      ∧ model.emission_probabilities k d ≤ 1)
    (hSpos : ∀ i, 0 < ∑ k, observation_emission_support model unique_dataset i k)
    (hupos : ∀ k, 0 < ∑ i, posterior_probability_of_class_given_support
        (observation_emission_support model unique_dataset) i k * counts i) :
    fit_current_log_likelihood (fun q => Real.log (q : ℝ)) unique_dataset
        counts model
      ≤ fit_current_log_likelihood (fun q => Real.log (q : ℝ)) unique_dataset
          counts (em_step unique_dataset counts model) := by
  set zq := posterior_probability_of_class_given_support
    (observation_emission_support model unique_dataset) with hzq
  set pe := m_step zq unique_dataset counts with hpe
  have hs_eq : ∀ (i : Fin M) (k : Fin K),
      ((observation_emission_support model unique_dataset i k : ℚ) : ℝ)
        = (model.mixing_coefficients k : ℝ)
          * ∏ d, (if unique_dataset i d
              then (model.emission_probabilities k d : ℝ)
              else 1 - (model.emission_probabilities k d : ℝ)) := by
    intro i k
    simp only [observation_emission_support, bernoulli_prob_for_observations]
    push_cast
    refine congrArg _ (Finset.prod_congr rfl fun d _ => ?_)
    by_cases hxd : unique_dataset i d
    · rw [if_pos hxd, if_pos hxd]
    · rw [if_neg hxd, if_neg hxd]
      push_cast
      rfl
  have hz_eq : ∀ (i : Fin M) (k : Fin K), ((zq i k : ℚ) : ℝ)
      = ((observation_emission_support model unique_dataset i k : ℚ) : ℝ)
        / ∑ j, ((observation_emission_support model unique_dataset i j : ℚ) : ℝ) := by
    intro i k
    rw [hzq]
    simp only [posterior_probability_of_class_given_support]
    push_cast
    rfl
  have hu_eq : ∀ k : Fin K, (((∑ i, zq i k * counts i : ℚ)) : ℝ)
      = ∑ i, (zq i k : ℝ) * (counts i : ℝ) := by
    intro k
    push_cast
    rfl
  have hc_eq : ∀ (k : Fin K) (d : Fin D),
      ((maximise_emissions unique_dataset zq counts k d : ℚ) : ℝ)
        = ∑ i, (counts i : ℝ) * (zq i k : ℝ)
            * (if unique_dataset i d then (1 : ℝ) else 0) := by
    intro k d
    simp only [maximise_emissions]
    push_cast
    refine Finset.sum_congr rfl fun i _ => ?_
    by_cases hxd : unique_dataset i d
    · rw [if_pos hxd, if_pos hxd]
      push_cast
      rfl
    · rw [if_neg hxd, if_neg hxd]
      push_cast
      rfl
  have hpi2_eq : ∀ k : Fin K, ((pe.1 k : ℚ) : ℝ)
      = (((∑ i, zq i k * counts i : ℚ)) : ℝ) / ∑ i, (counts i : ℝ) := by
    intro k
    rw [hpe]
    show (((∑ i, zq i k * counts i) / ∑ i, counts i : ℚ) : ℝ) = _
    push_cast
    rfl
  have he2_eq : ∀ (k : Fin K) (d : Fin D), ((pe.2 k d : ℚ) : ℝ)
      = ((maximise_emissions unique_dataset zq counts k d : ℚ) : ℝ)
        / (((∑ i, zq i k * counts i : ℚ)) : ℝ) := by
    intro k d
    rw [hpe]
    show ((maximise_emissions unique_dataset zq counts k d
      / ∑ i, zq i k * counts i : ℚ) : ℝ) = _
    push_cast
    rfl
  have key := em_real (M := M) (K := K) (D := D)
    (fun i => (counts i : ℝ)) unique_dataset
    (fun k => (model.mixing_coefficients k : ℝ))
    (fun k d => (model.emission_probabilities k d : ℝ))
    (fun i => by
      show (0 : ℝ) < (counts i : ℝ)
      exact_mod_cast hw i)
    (fun k => by
      show (0 : ℝ) ≤ (model.mixing_coefficients k : ℝ)
      exact_mod_cast hpi0 k)
    (by
      show (∑ k, (model.mixing_coefficients k : ℝ)) = 1
      exact_mod_cast hpisum)
    (fun k d => ⟨by
      show (0 : ℝ) ≤ (model.emission_probabilities k d : ℝ)
      exact_mod_cast (he01 k d).1, by
      show (model.emission_probabilities k d : ℝ) ≤ 1
      exact_mod_cast (he01 k d).2⟩)
    (fun i k => ((observation_emission_support model unique_dataset i k : ℚ) : ℝ))
    hs_eq
    (fun i => by
      show (0 : ℝ) < ∑ j, ((observation_emission_support model unique_dataset i j : ℚ) : ℝ)
      have h1 : ((0 : ℚ) : ℝ)
          < ((∑ j, observation_emission_support model unique_dataset i j : ℚ) : ℝ) := by
        exact_mod_cast hSpos i
      rw [Rat.cast_zero] at h1
      refine lt_of_lt_of_eq h1 ?_
      push_cast
      rfl)
    (fun i k => ((zq i k : ℚ) : ℝ)) hz_eq
    (fun k => (((∑ i, zq i k * counts i : ℚ)) : ℝ)) hu_eq
    (fun k => by
      show (0 : ℝ) < (((∑ i, zq i k * counts i : ℚ)) : ℝ)
      exact_mod_cast hupos k)
    (fun k d => ((maximise_emissions unique_dataset zq counts k d : ℚ) : ℝ))
    hc_eq
    (fun k => ((pe.1 k : ℚ) : ℝ)) hpi2_eq
    (fun k d => ((pe.2 k d : ℚ) : ℝ)) he2_eq
  have lhs_eq : fit_current_log_likelihood (fun q => Real.log (q : ℝ))
      unique_dataset counts model
      = ∑ i, (counts i : ℝ)
          * Real.log (∑ j,
            ((observation_emission_support model unique_dataset i j : ℚ) : ℝ)) := by
    unfold fit_current_log_likelihood log_likelihood_from_support
    refine Finset.sum_congr rfl fun i _ => ?_
    rw [mul_comm]
    congr 1
    push_cast
    rfl
  have rhs_eq : fit_current_log_likelihood (fun q => Real.log (q : ℝ))
      unique_dataset counts (em_step unique_dataset counts model)
      = ∑ i, (counts i : ℝ)
          * Real.log (∑ k, ((pe.1 k : ℚ) : ℝ)
            * ∏ d, (if unique_dataset i d then ((pe.2 k d : ℚ) : ℝ)
                else 1 - ((pe.2 k d : ℚ) : ℝ))) := by
    unfold fit_current_log_likelihood log_likelihood_from_support
    refine Finset.sum_congr rfl fun i _ => ?_
    rw [mul_comm]
    congr 1
    have hsup : ∀ k : Fin K,
        observation_emission_support (em_step unique_dataset counts model)
          unique_dataset i k
        = pe.1 k * ∏ d, (if unique_dataset i d then pe.2 k d
            else 1 - pe.2 k d) := by
      intro k
      rfl
    rw [Finset.sum_congr rfl fun k _ => hsup k]
    push_cast
    congr 1
    refine Finset.sum_congr rfl fun k _ => ?_
    refine congrArg _ (Finset.prod_congr rfl fun d _ => ?_)
    by_cases hxd : unique_dataset i d
    · rw [if_pos hxd, if_pos hxd]
    · rw [if_neg hxd, if_neg hxd]
      push_cast
      rfl
  rw [lhs_eq, rhs_eq]
  exact key

/-- Witness for C6 at a concrete input, with a boundary emission probability
of exactly 1. -/
theorem em_step_log_likelihood_monotone_witness :
    (∀ i, 0 < weights_one i)
    ∧ (∀ k, 0 ≤ model_one.mixing_coefficients k)
    ∧ (∑ k, model_one.mixing_coefficients k = 1)
    ∧ (∀ k d, 0 ≤ model_one.emission_probabilities k d
        ∧ model_one.emission_probabilities k d ≤ 1)
    ∧ (∀ i, 0 < ∑ k, observation_emission_support model_one rows_one i k)
    ∧ (∀ k, 0 < ∑ i, posterior_probability_of_class_given_support
        (observation_emission_support model_one rows_one) i k * weights_one i)
    ∧ fit_current_log_likelihood (fun q => Real.log (q : ℝ)) rows_one
        weights_one model_one
      ≤ fit_current_log_likelihood (fun q => Real.log (q : ℝ)) rows_one
          weights_one (em_step rows_one weights_one model_one) :=
  ⟨fun _ => one_pos, fun _ => zero_le_one, by simp [model_one],
   fun _ _ => ⟨zero_le_one, le_refl 1⟩,
   by simp [observation_emission_support, bernoulli_prob_for_observations,
     model_one, rows_one],
   by simp [posterior_probability_of_class_given_support,
     observation_emission_support, bernoulli_prob_for_observations,
     model_one, rows_one, weights_one],
   em_step_log_likelihood_monotone rows_one weights_one model_one
     (fun _ => one_pos) (fun _ => zero_le_one) (by simp [model_one])
     (fun _ _ => ⟨zero_le_one, le_refl 1⟩)
     (by simp [observation_emission_support, bernoulli_prob_for_observations,
       model_one, rows_one])
     (by simp [posterior_probability_of_class_given_support,
       observation_emission_support, bernoulli_prob_for_observations,
       model_one, rows_one, weights_one])⟩

/-- Witness for C8 at a concrete input. -/
theorem aic_bic_formulas_witness :
    log_likelihood (fun _ => (0 : ℚ)) model_one rows_one = .ok 0
    ∧ AIC (fun _ => (0 : ℚ)) model_one rows_one
        = .ok (-2 * 0 + 2 * (number_of_free_parameters 1 1 : ℚ))
    ∧ BIC (fun _ => (0 : ℚ)) model_one rows_one
        = .ok (-2 * 0 + (fun _ => (0 : ℚ)) ((1 : ℕ) : ℚ)
            * (number_of_free_parameters 1 1 : ℚ))
    ∧ number_of_free_parameters 3 4 = 14 := by
  have hll : log_likelihood (fun _ => (0 : ℚ)) model_one rows_one = .ok 0 := by
    simp [log_likelihood, dataset_row_list, dataset_rows, aggregate_dataset,
      log_likelihood_from_support, observation_emission_support,
      bernoulli_prob_for_observations, model_one, rows_one]
  have h := aic_bic_formulas (fun _ => (0 : ℚ)) model_one rows_one 0 hll
  exact ⟨hll, h.1, h.2.1, h.2.2.2⟩

end Bernoullimix
